import Mathlib

/-!
Verification development for the `xo` command line tool (src/xo.go, with the
earlier variant src/main.go).  Strings are modelled as `List Char` (Go strings
decoded rune by rune); the raw CLI argument is additionally modelled at the
byte level (`List Nat`) where UTF-8 validity matters.  The regular-expression
engine that produces the match list is external to the program's core and is
modelled as a parameter supplying the list of capture groups per match.
-/

namespace Xo

/-- Unicode replacement character U+FFFD.  Go's `utf8.DecodeRuneInString`
returns this rune (with size 0) when asked to decode an empty string, which
the splitter's escape lookahead can observe. -/
def replacementChar : Char := Char.ofNat 0xFFFD

/-- Flushing the accumulation buffer: a non-empty buffer becomes one final
component, an empty buffer contributes nothing (src/xo.go lines 234-239 and
244-246). -/
def flushBuf (buf : List Char) : List (List Char) :=
  if buf = [] then [] else [buf.reverse]

/-- Scanning loop of `split` (src/xo.go lines 221-243).  `buf` holds the
current component reversed.  On a backslash the code peeks at the next rune:
if it equals the delimiter, the delimiter alone is appended and both runes are
consumed.  Peeking at the end of the string yields U+FFFD with size 0, so a
trailing backslash with delimiter U+FFFD appends U+FFFD and ends the scan;
otherwise the backslash falls through to the ordinary-rune handling:
an unescaped delimiter flushes a non-empty buffer (an empty buffer is
silently skipped), any other rune is appended. -/
def splitLoop (delim : Char) : List Char → List Char → List (List Char)
  | [], buf => flushBuf buf
  | ['\\'], buf =>
    if replacementChar = delim then flushBuf (replacementChar :: buf)
    else if '\\' = delim then flushBuf buf
    else flushBuf ('\\' :: buf)
  | '\\' :: peek :: rest, buf =>
    if peek = delim then splitLoop delim rest (peek :: buf)
    else if '\\' = delim then
      (if buf = [] then splitLoop delim (peek :: rest) []
       else buf.reverse :: splitLoop delim (peek :: rest) [])
    else splitLoop delim (peek :: rest) ('\\' :: buf)
  | c :: str, buf =>
    if c = delim then
      (if buf = [] then splitLoop delim str []
       else buf.reverse :: splitLoop delim str [])
    else splitLoop delim str (c :: buf)

/-- The splitter `split` of src/xo.go (lines 208-248) on an already decoded
string: the first rune is the delimiter, the remainder is scanned by
`splitLoop`.  On the empty string Go decodes delimiter U+FFFD with size 0 and
the loop body never runs, so the result is empty. -/
def split : List Char → List (List Char)
  | [] => []
  | delim :: rest => splitLoop delim rest []

/-- Scanning loop as the specification words it (spec section 4.1, steps 2-5):
a backslash immediately followed by the delimiter appends the delimiter and
consumes both characters; otherwise each character is handled on its own, an
unescaped delimiter flushing a non-empty buffer.  A trailing backslash is an
ordinary character here: the spec recognises no other escape form. -/
def splitSpecLoop (delim : Char) : List Char → List Char → List (List Char)
  | [], buf => flushBuf buf
  | ['\\'], buf =>
    if '\\' = delim then flushBuf buf
    else flushBuf ('\\' :: buf)
  | '\\' :: peek :: rest, buf =>
    if peek = delim then splitSpecLoop delim rest (peek :: buf)
    else if '\\' = delim then
      (if buf = [] then splitSpecLoop delim (peek :: rest) []
       else buf.reverse :: splitSpecLoop delim (peek :: rest) [])
    else splitSpecLoop delim (peek :: rest) ('\\' :: buf)
  | c :: str, buf =>
    if c = delim then
      (if buf = [] then splitSpecLoop delim str []
       else buf.reverse :: splitSpecLoop delim str [])
    else splitSpecLoop delim str (c :: buf)

/-- Splitter as described by the specification's words, for comparison with
the implementation `split`. -/
def splitSpec : List Char → List (List Char)
  | [] => []
  | delim :: rest => splitSpecLoop delim rest []

theorem splitLoop_eq_specLoop (delim : Char) (h : delim ≠ replacementChar) :
    ∀ str buf, splitLoop delim str buf = splitSpecLoop delim str buf := by
  intro str buf
  induction str, buf using splitLoop.induct delim with
  | case1 buf => rfl
  | case2 buf hr => exact absurd hr.symm h
  | case3 buf hr hb => simp [splitLoop, splitSpecLoop, hr, hb]
  | case4 buf hr hb => simp [splitLoop, splitSpecLoop, hr, hb]
  | case5 rest buf ih => simp [splitLoop, splitSpecLoop, ih]
  | case6 peek rest hp hb ih =>
    simp only [splitLoop, splitSpecLoop, if_neg hp, if_pos hb]
    exact ih
  | case7 peek rest buf hp hb hne ih =>
    simp only [splitLoop, splitSpecLoop, if_neg hp, if_pos hb, if_neg hne]
    exact congrArg _ ih
  | case8 peek rest buf hp hb ih => simp [splitLoop, splitSpecLoop, hp, hb, ih]
  | case9 str h1 h2 ih =>
    match str with
    | [] => simp [splitLoop, splitSpecLoop, ih]
    | peek :: rest => simp [splitLoop, splitSpecLoop, ih]
  | case10 str buf hb h1 h2 ih =>
    match str with
    | [] => simp [splitLoop, splitSpecLoop, hb, ih]
    | peek :: rest => simp [splitLoop, splitSpecLoop, hb, ih]
  | case11 c str buf h1 h2 hc ih =>
    match str with
    | [] =>
      match hcc : decide (c = '\\') with
      | true => simp_all
      | false => simp_all [splitLoop, splitSpecLoop]
    | peek :: rest => simp_all [splitLoop, splitSpecLoop]

theorem mem_flushBuf {comp buf : List Char} (h : comp ∈ flushBuf buf) :
    comp ≠ [] := by
  unfold flushBuf at h
  split at h
  · simp at h
  · rename_i hb
    simp at h
    subst h
    simpa [List.reverse_eq_nil_iff] using hb

theorem splitLoop_components_ne_nil (delim : Char) :
    ∀ str buf, ∀ comp ∈ splitLoop delim str buf, comp ≠ [] := by
  intro str buf
  induction str, buf using splitLoop.induct delim with
  | case1 buf => exact fun comp h => mem_flushBuf h
  | case2 buf hr => intro comp h; rw [splitLoop] at h; simp only [if_pos hr] at h
                    exact mem_flushBuf h
  | case3 buf hr hb => intro comp h; rw [splitLoop] at h
                       simp only [if_neg hr, if_pos hb] at h
                       exact mem_flushBuf h
  | case4 buf hr hb => intro comp h; rw [splitLoop] at h
                       simp only [if_neg hr, if_neg hb] at h
                       exact mem_flushBuf h
  | case5 rest buf ih => intro comp h; rw [splitLoop] at h; simp only [if_pos rfl] at h
                         exact ih comp h
  | case6 peek rest hp hb ih =>
    intro comp h; rw [splitLoop] at h
    simp only [if_neg hp, if_pos hb, if_pos rfl] at h
    exact ih comp h
  | case7 peek rest buf hp hb hne ih =>
    intro comp h; rw [splitLoop] at h
    simp only [if_neg hp, if_pos hb, if_neg hne, List.mem_cons] at h
    rcases h with h | h
    · subst h; simpa [List.reverse_eq_nil_iff] using hne
    · exact ih comp h
  | case8 peek rest buf hp hb ih =>
    intro comp h; rw [splitLoop] at h
    simp only [if_neg hp, if_neg hb] at h
    exact ih comp h
  | case9 str h1 h2 ih =>
    intro comp h
    cases str with
    | nil =>
      have hcc : delim = '\\' → False := fun hc' => h1 hc' rfl
      rw [splitLoop] at h
      · rw [if_pos rfl] at h
        exact ih comp h
      · exact fun hc' _ => hcc hc'
      · exact fun p r hc' _ => hcc hc'
    | cons peek rest =>
      have hcc : delim = '\\' → False := fun hc' => h2 peek rest hc' rfl
      rw [splitLoop] at h
      · rw [if_pos rfl] at h
        exact ih comp h
      · exact fun hc' _ => hcc hc'
      · exact fun p r hc' _ => hcc hc'
  | case10 str buf hb h1 h2 ih =>
    intro comp h
    cases str with
    | nil =>
      have hcc : delim = '\\' → False := fun hc' => h1 hc' rfl
      rw [splitLoop] at h
      · rw [if_pos rfl, if_neg hb] at h
        rcases List.mem_cons.mp h with h | h
        · subst h; simpa [List.reverse_eq_nil_iff] using hb
        · exact ih comp h
      · exact fun hc' _ => hcc hc'
      · exact fun p r hc' _ => hcc hc'
    | cons peek rest =>
      have hcc : delim = '\\' → False := fun hc' => h2 peek rest hc' rfl
      rw [splitLoop] at h
      · rw [if_pos rfl, if_neg hb] at h
        rcases List.mem_cons.mp h with h | h
        · subst h; simpa [List.reverse_eq_nil_iff] using hb
        · exact ih comp h
      · exact fun hc' _ => hcc hc'
      · exact fun p r hc' _ => hcc hc'
  | case11 c str buf h1 h2 hc ih =>
    intro comp h
    cases str with
    | nil =>
      have hcc : c = '\\' → False := fun hc' => h1 hc' rfl
      rw [splitLoop] at h
      · rw [if_neg hc] at h
        exact ih comp h
      · exact fun hc' _ => hcc hc'
      · exact fun p r hc' _ => hcc hc'
    | cons peek rest =>
      have hcc : c = '\\' → False := fun hc' => h2 peek rest hc' rfl
      rw [splitLoop] at h
      · rw [if_neg hc] at h
        exact ih comp h
      · exact fun hc' _ => hcc hc'
      · exact fun p r hc' _ => hcc hc'

theorem split_components_ne_nil :
    ∀ str : List Char, ∀ comp ∈ split str, comp ≠ [] := by
  intro str
  match str with
  | [] => intro comp h; simp [split] at h
  | d :: rest => exact splitLoop_components_ne_nil d rest []

/-- C1 counterexample: with the Unicode replacement character U+FFFD as the
delimiter and a remainder ending in a lone backslash, the splitter's
end-of-string peek decodes U+FFFD, which compares equal to the delimiter, so
the trailing backslash is turned into a literal U+FFFD instead of being kept
as an ordinary backslash as the claimed scanning rules require. -/
theorem split_replacement_delim_cex :
    split [replacementChar, 'a', '\\'] = [['a', replacementChar]]
    ∧ splitSpec [replacementChar, 'a', '\\'] = [['a', '\\']]
    ∧ (['a', replacementChar] : List Char) ≠ ['a', '\\'] :=
  ⟨by decide, by decide, by decide⟩

/-- C1 (amended): for every specification string whose first rune (the
delimiter) is not U+FFFD, the splitter returns exactly the non-empty
components obtained by the claimed scan of the remainder — an escaped
delimiter contributes one literal delimiter, an unescaped delimiter ends the
current component, and no empty components are produced; splitting
`"//a//b//"` yields `["a", "b"]` and the first component of `"/a\/b/c/"`
contains a literal `'/'`.  (With delimiter U+FFFD, a component ending in a
lone backslash gets U+FFFD appended instead, per the counterexample.) -/
theorem split_agrees_with_spec (delim : Char) (rest : List Char)
    (h : delim ≠ replacementChar) :
    split (delim :: rest) = splitSpec (delim :: rest)
    ∧ (∀ comp ∈ split (delim :: rest), comp ≠ [])
    ∧ split "//a//b//".data = [['a'], ['b']]
    ∧ split "/a\\/b/c/".data = [['a', '/', 'b'], ['c']] :=
  ⟨splitLoop_eq_specLoop delim h rest [],
   split_components_ne_nil (delim :: rest),
   by decide, by decide⟩

theorem split_agrees_with_spec_witness :
    split ['/', 'a'] = splitSpec ['/', 'a']
    ∧ (∀ comp ∈ split ['/', 'a'], comp ≠ [])
    ∧ split "//a//b//".data = [['a'], ['b']]
    ∧ split "/a\\/b/c/".data = [['a', '/', 'b'], ['c']] :=
  split_agrees_with_spec '/' ['a'] (by decide)

/-! ### UTF-8 validation (src/xo.go line 209: utf8.ValidString) -/

/-- Continuation byte test: `0x80..0xBF`. -/
def isCont (b : Nat) : Bool := 0x80 ≤ b ∧ b ≤ 0xBF

/-- Decoding of a whole byte string, following the acceptance ranges of Go's
`unicode/utf8` package (overlong encodings, surrogates and values above
U+10FFFF are rejected): `none` exactly when the bytes are not valid UTF-8 in
the sense of `utf8.ValidString`, which `split` checks first. -/
def utf8Decode : List Nat → Option (List Char)
  | [] => some []
  | b :: bs =>
    if b ≤ 0x7F then (utf8Decode bs).map (Char.ofNat b :: ·)
    else if 0xC2 ≤ b ∧ b ≤ 0xDF then
      match bs with
      | b1 :: rest =>
        if isCont b1 then
          (utf8Decode rest).map (Char.ofNat ((b - 0xC0) * 64 + (b1 - 0x80)) :: ·)
        else none
      | [] => none
    else if 0xE0 ≤ b ∧ b ≤ 0xEF then
      match bs with
      | b1 :: b2 :: rest =>
        if (if b = 0xE0 then 0xA0 ≤ b1 ∧ b1 ≤ 0xBF
            else if b = 0xED then 0x80 ≤ b1 ∧ b1 ≤ 0x9F
            else isCont b1) ∧ isCont b2 then
          (utf8Decode rest).map
            (Char.ofNat ((b - 0xE0) * 4096 + (b1 - 0x80) * 64 + (b2 - 0x80)) :: ·)
        else none
      | _ => none
    else if 0xF0 ≤ b ∧ b ≤ 0xF4 then
      match bs with
      | b1 :: b2 :: b3 :: rest =>
        if (if b = 0xF0 then 0x90 ≤ b1 ∧ b1 ≤ 0xBF
            else if b = 0xF4 then 0x80 ≤ b1 ∧ b1 ≤ 0x8F
            else isCont b1) ∧ isCont b2 ∧ isCont b3 then
          (utf8Decode rest).map
            (Char.ofNat ((b - 0xF0) * 262144 + (b1 - 0x80) * 4096
                         + (b2 - 0x80) * 64 + (b3 - 0x80)) :: ·)
        else none
      | _ => none
    else none

/-! ### Fallback marker scanning (src/xo.go lines 171-189)

The code builds, per capture index `i`, the Go regex
`(\$i)\?:(([-_A-Za-z0-9]((\\.)+)?)+)` and uses `FindStringSubmatch` (leftmost
match, group 2 is the literal) and `ReplaceAllString(result, "$1")` (every
marker occurrence replaced by its group 1, the literal text `$i`).  The
scanner below is that regex's matching function: after the literal `$i?:` the
literal run is one or more units, each unit an allowed character optionally
followed by one or more backslash escapes, where the regex dot of `\\.` does
not match a newline; greedy matching takes the maximal such run. -/

/-- Character class `[-_A-Za-z0-9]` of the fallback literal regex. -/
def isLitChar (c : Char) : Bool :=
  c == '-' || c == '_' || (decide ('A' ≤ c) && decide (c ≤ 'Z'))
    || (decide ('a' ≤ c) && decide (c ≤ 'z')) || (decide ('0' ≤ c) && decide (c ≤ '9'))

/-- Placeholder text for capture index `i`: the regex compiled from
`fmt.Sprintf("\$%d", i)` matches exactly this literal. -/
def placeholder (i : Nat) : List Char := '$' :: Nat.toDigits 10 i

/-- Literal part `$i?:` that opens the fallback marker regex. -/
def markerPre (i : Nat) : List Char := placeholder i ++ ['?', ':']

/-- Greedy continuation of the literal run after its first allowed character:
a mix of allowed characters and backslash escapes (`\\.`, the dot not
matching a newline), consumed maximally. -/
def takeTokens : List Char → List Char × List Char
  | [] => ([], [])
  | c :: rest =>
    if c = '\\' then
      match rest with
      | c2 :: rest2 =>
        if c2 ≠ '\n' then
          ((fun p => ('\\' :: c2 :: p.1, p.2)) (takeTokens rest2))
        else ([], c :: rest)
      | [] => ([], [c])
    else if isLitChar c then
      ((fun p => (c :: p.1, p.2)) (takeTokens rest))
    else ([], c :: rest)

/-- Group 2 of the marker regex: a literal run must begin with an allowed
character (the regex unit starts with `[-_A-Za-z0-9]`), then continues per
`takeTokens`.  Returns the run and the remaining input, or `none` when no run
starts here. -/
def takeLit : List Char → Option (List Char × List Char)
  | [] => none
  | c :: rest =>
    if isLitChar c then
      ((fun p => some (c :: p.1, p.2)) (takeTokens rest))
    else none

/-- Match of the full marker regex at the head of `s`: the literal `$i?:`
followed by a literal run.  Returns the run and the input after the match. -/
def matchMarkerAt (i : Nat) (s : List Char) : Option (List Char × List Char) :=
  if (markerPre i).isPrefixOf s then takeLit (s.drop (markerPre i).length)
  else none

/-- Leftmost marker match in `s` (`FindStringSubmatch`): the literal run of
the first position where the marker regex matches. -/
def findMarker (i : Nat) : List Char → Option (List Char)
  | [] => none
  | c :: rest =>
    match matchMarkerAt i (c :: rest) with
    | some p => some p.1
    | none => findMarker i rest

theorem takeTokens_rest_length (s : List Char) :
    (takeTokens s).2.length ≤ s.length := by
  induction s using takeTokens.induct with
  | case1 => simp [takeTokens]
  | case2 c2 rest2 h2 ih =>
    simp only [takeTokens, if_pos rfl, if_pos h2]
    refine le_trans ih ?_
    simp only [List.length_cons]
    omega
  | case3 c2 rest2 h2 =>
    simp [takeTokens, h2]
  | case4 => decide
  | case5 c rest h1 h2 ih =>
    rw [takeTokens.eq_def]
    simp only [if_neg h1, if_pos h2]
    refine le_trans ih ?_
    simp only [List.length_cons]
    omega
  | case6 c rest h1 h2 =>
    rw [takeTokens.eq_def]
    simp [h1, h2]

theorem takeLit_rest_length {s lit r : List Char}
    (h : takeLit s = some (lit, r)) : r.length < s.length := by
  match s with
  | [] => simp [takeLit] at h
  | c :: rest =>
    rw [takeLit] at h
    by_cases hc : isLitChar c
    · simp only [if_pos hc, Option.some.injEq] at h
      have := takeTokens_rest_length rest
      cases h
      simpa using Nat.lt_succ_of_le this
    · simp [if_neg hc] at h

theorem matchMarkerAt_rest_length {i : Nat} {s : List Char} {p : List Char × List Char}
    (h : matchMarkerAt i s = some p) : p.2.length < s.length := by
  rw [matchMarkerAt] at h
  split at h
  · have h1 : p.2.length < (s.drop (markerPre i).length).length := by
      obtain ⟨lit, r⟩ := p
      exact takeLit_rest_length h
    exact lt_of_lt_of_le h1 (by simp)
  · exact absurd h (by simp)

/-- Rewriting of every marker occurrence `$i?:<literal>` down to the plain
placeholder `$i` (`rxFallback.ReplaceAllString(result, "$1")`; group 1 of the
marker regex is the literal text `$i`). -/
def stripMarkers (i : Nat) : List Char → List Char
  | [] => []
  | c :: rest =>
    match h : matchMarkerAt i (c :: rest) with
    | some p => placeholder i ++ stripMarkers i p.2
    | none => c :: stripMarkers i rest
termination_by s => s.length
decreasing_by
  · exact matchMarkerAt_rest_length h
  · simp

/-- Removal of one level of escaping from a fallback literal
(`rxEsc.ReplaceAllString(fallback[2], "$1")` with `rxEsc = \\(.)`, the dot not
matching a newline): each backslash-plus-character pair is replaced by the
character. -/
def deEscape : List Char → List Char
  | [] => []
  | '\\' :: c :: rest =>
    if c ≠ '\n' then c :: deEscape rest else '\\' :: deEscape (c :: rest)
  | c :: rest => c :: deEscape rest

/-! ### Replacement-template expansion

Go's `Regexp.ReplaceAllString(src, repl)` interprets `$` signs in `repl` as
in `Regexp.Expand`: `$$` is a literal `$`; `$name` or `${name}` with `name` a
non-empty run of letters, digits and underscores refers to the capture group
with that number (purely numeric name, no leading zero, capped below 1e8) or
name, an out-of-range or unknown reference expanding to the empty string; a
`$` not followed by a well-formed name is kept as is.  Go classifies letters
and digits with full Unicode tables; this model restricts them to ASCII,
which agrees with Go on every ASCII template.  None of the regexes built by
xo carry group names, so a named reference always expands to nothing. -/

/-- Name characters of a `$name` reference: ASCII letters, digits, `_`. -/
def nameChar (c : Char) : Bool :=
  (decide ('A' ≤ c) && decide (c ≤ 'Z')) || (decide ('a' ≤ c) && decide (c ≤ 'z'))
    || (decide ('0' ≤ c) && decide (c ≤ '9')) || c == '_'

/-- Maximal run of name characters and the remaining input. -/
def takeName : List Char → List Char × List Char
  | [] => ([], [])
  | c :: rest =>
    if nameChar c then ((fun p => (c :: p.1, p.2)) (takeName rest))
    else ([], c :: rest)

/-- Numeric interpretation of a reference name, mirroring Go's digit loop:
fails on a non-digit, on an accumulator reaching 1e8, and on a leading zero
in a multi-digit name. -/
def parseNumAux : Nat → List Char → Option Nat
  | acc, [] => some acc
  | acc, c :: rest =>
    if c < '0' ∨ '9' < c ∨ 100000000 ≤ acc then none
    else parseNumAux (acc * 10 + (c.toNat - 48)) rest

/-- Number denoted by a reference name, `none` when the name is not a plain
decimal number. -/
def parseNum (name : List Char) : Option Nat :=
  match name with
  | '0' :: _ :: _ => none
  | _ => parseNumAux 0 name

/-- Go's `extract`: reads one `$name` or `${name}` reference right after the
`$`, returning the name and the remaining template, or `none` when
malformed (empty name, or unclosed brace). -/
def extract (s : List Char) : Option (List Char × List Char) :=
  match s with
  | [] => none
  | c :: rest =>
    if c = '{' then
      match takeName rest with
      | ([], _) => none
      | (name, '}' :: rest2) => some (name, rest2)
      | (_, _) => none
    else
      match takeName (c :: rest) with
      | ([], _) => none
      | (name, rest2) => some (name, rest2)

theorem takeName_length (s : List Char) :
    (takeName s).1.length + (takeName s).2.length = s.length := by
  induction s with
  | nil => simp [takeName]
  | cons c rest ih =>
    rw [takeName]
    split
    · dsimp only
      simp only [List.length_cons]
      omega
    · simp

theorem extract_rest_length {s : List Char} {p : List Char × List Char}
    (h : extract s = some p) : p.2.length < s.length := by
  match s with
  | [] => simp [extract] at h
  | c :: rest =>
    rw [extract] at h
    split at h
    · have hlen := takeName_length rest
      split at h
      · exact absurd h (by simp)
      · rename_i name rest2 heq
        rw [heq] at hlen
        cases h
        simp only [List.length_cons] at hlen ⊢
        omega
      · exact absurd h (by simp)
    · have hlen := takeName_length (c :: rest)
      split at h
      · exact absurd h (by simp)
      · rename_i nm rest2 hne heq
        rw [heq] at hlen
        cases h
        have hpos : 0 < nm.length := List.length_pos.mpr hne
        simp only [List.length_cons] at hlen ⊢
        omega

/-- Expansion of a replacement template against the capture groups of one
match (`Regexp.expand`): `$$` emits `$`, a well-formed numeric reference in
range emits that group, an out-of-range or named reference emits nothing, a
malformed `$` is kept literally. -/
def expand (groups : List (List Char)) : List Char → List Char
  | [] => []
  | '$' :: '$' :: rest2 => '$' :: expand groups rest2
  | '$' :: rest =>
    (match h : extract rest with
     | some p =>
       (match parseNum p.1 with
        | some n => groups.getD n []
        | none => []) ++ expand groups p.2
     | none => '$' :: expand groups rest)
  | c :: rest => c :: expand groups rest
termination_by s => s.length
decreasing_by
  all_goals simp only [List.length_cons]
  all_goals first
    | omega
    | (have hh := extract_rest_length h
       omega)

/-- Replacement of every non-overlapping leftmost occurrence of the literal
pattern `pat` in a string by `rep` (`ReplaceAllString` for a regex that
matches exactly the literal `pat`; the replacement text is `rep`, the result
of expanding the replacement template once, the groups being the same at
every occurrence). -/
def replaceAll (pat rep : List Char) : List Char → List Char
  | [] => []
  | c :: rest =>
    if pat ≠ [] ∧ pat.isPrefixOf (c :: rest) then
      rep ++ replaceAll pat rep ((c :: rest).drop pat.length)
    else c :: replaceAll pat rep rest
termination_by s => s.length
decreasing_by
  · rename_i hcond
    have hpat : 0 < pat.length := List.length_pos.mpr hcond.1
    simp only [List.length_drop, List.length_cons]
    omega
  · simp only [List.length_cons]; omega

/-! ### The per-match substitution loop (src/xo.go lines 163-202) -/

/-- Run-scoped fallback table `fallbacks : map[int]string`; a missing key
reads as the empty string, as a Go map zero value does. -/
abbrev Fb := Nat → Option (List Char)

/-- Fallback table at the start of a run: empty. -/
def emptyFb : Fb := fun _ => none

/-- Table with index `i` bound to `v`. -/
def updateFb (fb : Fb) (i : Nat) (v : List Char) : Fb :=
  fun j => if j = i then some v else fb j

/-- Registration step (lines 182-187): if the marker regex matches the
current working string and index `i` has no entry yet, bind `i` to the
de-escaped literal of the leftmost match; otherwise leave the table
unchanged. -/
def registerFb (fb : Fb) (i : Nat) (r : List Char) : Fb :=
  match findMarker i r with
  | some lit => if (fb i).isSome then fb else updateFb fb i (deEscape lit)
  | none => fb

/-- Marker stripping step (line 188): when the marker regex matches, every
marker occurrence for index `i` is rewritten to the bare placeholder. -/
def stripRes (i : Nat) (r : List Char) : List Char :=
  match findMarker i r with
  | some _ => stripMarkers i r
  | none => r

/-- Effective value for index `i` (lines 191-194): an empty capture reads the
fallback table (empty string when absent), a non-empty capture is used as
is. -/
def effectiveValue (fb : Fb) (i : Nat) (value : List Char) : List Char :=
  if value = [] then (fb i).getD [] else value

/-- Body of the inner loop for one capture index (lines 168-198): register
and strip the fallback marker, compute the effective value against the
updated table, then replace every `$i` by the expanded effective value. -/
def stepIndex (fb : Fb) (r : List Char) (i : Nat) (value : List Char) :
    Fb × List Char :=
  let fb2 := registerFb fb i r
  (fb2, replaceAll (placeholder i) (expand [placeholder i] (effectiveValue fb2 i value))
          (stripRes i r))

/-- Inner loop over the capture values of one match, indices counting up from
`i`; returns the final table and the finished output line. -/
def processGroup (fb : Fb) (r : List Char) (i : Nat) :
    List (List Char) → Fb × List Char
  | [] => (fb, r)
  | v :: vs =>
    processGroup (stepIndex fb r i v).1 (stepIndex fb r i v).2 (i + 1) vs

/-- Outer loop over all matches (line 165): each match starts from a fresh
copy of the format template, the fallback table flowing through the whole
run.  Returns the final table and the output lines in match order. -/
def processMatches (fb : Fb) (format : List Char) :
    List (List (List Char)) → Fb × List (List Char)
  | [] => (fb, [])
  | g :: gs =>
    (fun line rest => (rest.1, line.2 :: rest.2))
      (processGroup fb format 0 g)
      (processMatches (processGroup fb format 0 g).1 format gs)

/-- Output lines of one run: all matches formatted, starting from the empty
fallback table. -/
def xoFormat (format : List Char) (ms : List (List (List Char))) :
    List (List Char) :=
  (processMatches emptyFb format ms).2

/-! ### Top-level run (src/xo.go main, lines 135-161)

Regular-expression compilation itself (and its "Invalid regular expression"
error) belongs to the external engine; the engine is abstracted as a matcher
function, so the pipeline below covers the argument validation that precedes
it and the no-match check that follows it. -/

/-- Error conditions of a run, in the order main detects them. -/
inductive XoErr
  | invalidArg
  | noPatternFormatter
  | extraDelim
  | noMatches
deriving DecidableEq, Repr

/-- Argument parsing and validation (lines 135-150): UTF-8 validation plus
splitting, the component count checks, and the inline-flags wrapping
`(?flags)pattern` when a third component is present.  Returns the final
pattern and the format template. -/
def parseSpec (bytes : List Nat) : Except XoErr (List Char × List Char) :=
  match utf8Decode bytes with
  | none => .error .invalidArg
  | some cs =>
    let parts := split cs
    if parts.length ≤ 1 then .error .noPatternFormatter
    else if 3 < parts.length then .error .extraDelim
    else
      let pat0 := parts.getD 0 []
      let pattern := if 2 < parts.length
        then ('(' :: '?' :: parts.getD 2 []) ++ (')' :: pat0)
        else pat0
      .ok (pattern, parts.getD 1 [])

/-- Matching outcome handling (lines 158-161): an empty match list is the
fatal "No matches found" error and produces no output lines; otherwise every
match yields one line. -/
def xoRun (format : List Char) (ms : List (List (List Char))) :
    Except XoErr (List (List Char)) :=
  if ms = [] then .error .noMatches else .ok (xoFormat format ms)

/-- Whole pipeline, the compiled regex engine abstracted as a function from
pattern and input to the list of submatch groups (`FindAllSubmatch` returns
nil — here the empty list — when there is no match). -/
def xoMain (bytes : List Nat)
    (matcher : List Char → List Char → List (List (List Char)))
    (input : List Char) : Except XoErr (List (List Char)) :=
  match parseSpec bytes with
  | .error e => .error e
  | .ok pf => xoRun pf.2 (matcher pf.1 input)

/-! ### Helper lemmas -/

theorem replaceAll_nil (pat rep : List Char) : replaceAll pat rep [] = [] := by
  rw [replaceAll]

theorem replaceAll_cons (pat rep : List Char) (c : Char) (rest : List Char) :
    replaceAll pat rep (c :: rest) =
      if pat ≠ [] ∧ pat.isPrefixOf (c :: rest) then
        rep ++ replaceAll pat rep ((c :: rest).drop pat.length)
      else c :: replaceAll pat rep rest := by
  rw [replaceAll]

theorem stripMarkers_nil (i : Nat) : stripMarkers i [] = [] := by
  rw [stripMarkers]

theorem expand_nil (groups : List (List Char)) : expand groups [] = [] := by
  rw [expand]

theorem expand_cons_ne (groups : List (List Char)) (c : Char) (rest : List Char)
    (hc : c ≠ '$') : expand groups (c :: rest) = c :: expand groups rest := by
  rw [expand]
  all_goals intros
  all_goals simp_all

theorem expand_no_dollar (groups : List (List Char)) {s : List Char}
    (h : '$' ∉ s) : expand groups s = s := by
  induction s with
  | nil => exact expand_nil groups
  | cons c rest ih =>
    have hc : c ≠ '$' := fun hq => h (hq ▸ List.mem_cons_self c rest)
    rw [expand_cons_ne groups c rest hc,
        ih (fun hm => h (List.mem_cons_of_mem c hm))]

theorem isPrefixOf_append_self (l t : List Char) :
    l.isPrefixOf (l ++ t) = true := by
  induction l with
  | nil => simp [List.isPrefixOf]
  | cons a l ih => simp [List.isPrefixOf, ih]

theorem cons_isPrefixOf_ne {a b : Char} (h : a ≠ b) (l r : List Char) :
    (a :: l).isPrefixOf (b :: r) = false := by
  simp [List.isPrefixOf, h]

theorem markerPre_eq (i : Nat) :
    markerPre i = '$' :: (Nat.toDigits 10 i ++ ['?', ':']) := by
  simp [markerPre, placeholder]

theorem matchMarkerAt_cons_ne {i : Nat} {c : Char} {rest : List Char}
    (hc : c ≠ '$') : matchMarkerAt i (c :: rest) = none := by
  have hfalse : (markerPre i).isPrefixOf (c :: rest) = false := by
    rw [markerPre_eq]
    exact cons_isPrefixOf_ne (fun hq => hc hq.symm) _ _
  simp [matchMarkerAt, hfalse]

theorem findMarker_no_dollar {i : Nat} {s : List Char} (h : '$' ∉ s) :
    findMarker i s = none := by
  induction s with
  | nil => rw [findMarker]
  | cons c rest ih =>
    have hc : c ≠ '$' := fun hq => h (hq ▸ List.mem_cons_self c rest)
    rw [findMarker, matchMarkerAt_cons_ne hc]
    exact ih (fun hm => h (List.mem_cons_of_mem c hm))

theorem findMarker_append_left {i : Nat} {pre : List Char} (s : List Char)
    (h : '$' ∉ pre) : findMarker i (pre ++ s) = findMarker i s := by
  induction pre with
  | nil => rfl
  | cons c pre ih =>
    have hc : c ≠ '$' := fun hq => h (hq ▸ List.mem_cons_self c pre)
    rw [List.cons_append, findMarker, matchMarkerAt_cons_ne hc]
    exact ih (fun hm => h (List.mem_cons_of_mem c hm))

theorem replaceAll_cons_ne {p' rep : List Char} {c : Char} (rest : List Char)
    (hc : c ≠ '$') :
    replaceAll ('$' :: p') rep (c :: rest) = c :: replaceAll ('$' :: p') rep rest := by
  rw [replaceAll_cons, if_neg]
  intro hand
  have h2 := hand.2
  rw [cons_isPrefixOf_ne (fun hq => hc hq.symm)] at h2
  exact Bool.false_ne_true h2

theorem replaceAll_no_dollar {p' rep : List Char} {s : List Char}
    (h : '$' ∉ s) : replaceAll ('$' :: p') rep s = s := by
  induction s with
  | nil => exact replaceAll_nil _ _
  | cons c rest ih =>
    have hc : c ≠ '$' := fun hq => h (hq ▸ List.mem_cons_self c rest)
    rw [replaceAll_cons_ne rest hc,
        ih (fun hm => h (List.mem_cons_of_mem c hm))]

theorem replaceAll_append_left {p' rep : List Char} {pre : List Char}
    (s : List Char) (h : '$' ∉ pre) :
    replaceAll ('$' :: p') rep (pre ++ s) = pre ++ replaceAll ('$' :: p') rep s := by
  induction pre with
  | nil => rfl
  | cons c pre ih =>
    have hc : c ≠ '$' := fun hq => h (hq ▸ List.mem_cons_self c pre)
    rw [List.cons_append, replaceAll_cons_ne _ hc,
        ih (fun hm => h (List.mem_cons_of_mem c hm)), List.cons_append]

theorem stepIndex_no_dollar {fb : Fb} {r : List Char} (i : Nat) (v : List Char)
    (h : '$' ∉ r) : stepIndex fb r i v = (fb, r) := by
  have hfm : findMarker i r = none := findMarker_no_dollar h
  unfold stepIndex registerFb stripRes
  rw [hfm]
  simp only [placeholder]
  rw [replaceAll_no_dollar h]

theorem processGroup_no_dollar {fb : Fb} {r : List Char} (i : Nat)
    (vs : List (List Char)) (h : '$' ∉ r) : processGroup fb r i vs = (fb, r) := by
  induction vs generalizing fb i with
  | nil => rw [processGroup]
  | cons v vs ih =>
    rw [processGroup, stepIndex_no_dollar i v h]
    exact ih (i + 1)

theorem isLitChar_ne_backslash {c : Char} (h : isLitChar c = true) : c ≠ '\\' := by
  rintro rfl
  exact absurd h (by decide)

theorem isLitChar_ne_dollar {c : Char} (h : isLitChar c = true) : c ≠ '$' := by
  rintro rfl
  exact absurd h (by decide)

theorem not_dollar_mem_of_lit {v : List Char} (hv : ∀ c ∈ v, isLitChar c) :
    '$' ∉ v :=
  fun hm => isLitChar_ne_dollar (hv _ hm) rfl

/-- Maximality stop: the scan of a literal run halts at the end of the input
or at a character that neither belongs to the class nor starts an escape. -/
def stopsRun : List Char → Bool
  | [] => true
  | c :: _ => !isLitChar c && !(c == '\\')

theorem takeTokens_stops {rest : List Char} (hr : stopsRun rest = true) :
    takeTokens rest = ([], rest) := by
  cases rest with
  | nil => rw [takeTokens]
  | cons c r =>
    simp only [stopsRun, Bool.and_eq_true, Bool.not_eq_true', beq_eq_false_iff_ne] at hr
    rw [takeTokens.eq_def]
    dsimp only
    rw [if_neg hr.2, if_neg (by simp [hr.1])]

theorem takeTokens_lit_append {v rest : List Char} (hv : ∀ c ∈ v, isLitChar c)
    (hr : stopsRun rest = true) : takeTokens (v ++ rest) = (v, rest) := by
  induction v with
  | nil => simpa using takeTokens_stops hr
  | cons c v ih =>
    have hc : isLitChar c = true := hv c (List.mem_cons_self c v)
    have hcb : c ≠ '\\' := isLitChar_ne_backslash hc
    rw [List.cons_append, takeTokens.eq_def]
    dsimp only
    rw [if_neg hcb, if_pos hc, ih (fun d hd => hv d (List.mem_cons_of_mem c hd))]

theorem takeLit_lit_append {v rest : List Char} (hv : ∀ c ∈ v, isLitChar c)
    (hne : v ≠ []) (hr : stopsRun rest = true) :
    takeLit (v ++ rest) = some (v, rest) := by
  match v with
  | [] => exact absurd rfl hne
  | c :: v' =>
    have hc : isLitChar c = true := hv c (List.mem_cons_self c v')
    rw [List.cons_append, takeLit.eq_def]
    dsimp only
    rw [if_pos hc,
        takeTokens_lit_append (fun d hd => hv d (List.mem_cons_of_mem c hd)) hr]

theorem matchMarkerAt_marker (i : Nat) (t : List Char) :
    matchMarkerAt i (markerPre i ++ t) = takeLit t := by
  rw [matchMarkerAt, if_pos (isPrefixOf_append_self _ _), List.drop_left]

theorem findMarker_marker {i : Nat} {t lit r : List Char}
    (h : takeLit t = some (lit, r)) :
    findMarker i (markerPre i ++ t) = some lit := by
  have hm : matchMarkerAt i (markerPre i ++ t) = some (lit, r) := by
    rw [matchMarkerAt_marker, h]
  rw [markerPre_eq, List.cons_append] at hm ⊢
  rw [findMarker, hm]

theorem stripMarkers_cons_some {i : Nat} {c : Char} {rest : List Char}
    {p : List Char × List Char} (h : matchMarkerAt i (c :: rest) = some p) :
    stripMarkers i (c :: rest) = placeholder i ++ stripMarkers i p.2 := by
  rw [stripMarkers.eq_def]
  dsimp only
  split
  · rename_i p' heq
    rw [heq] at h
    cases h
    rfl
  · rename_i heq
    rw [heq] at h
    exact absurd h (by simp)

theorem stripMarkers_cons_none {i : Nat} {c : Char} {rest : List Char}
    (h : matchMarkerAt i (c :: rest) = none) :
    stripMarkers i (c :: rest) = c :: stripMarkers i rest := by
  rw [stripMarkers.eq_def]
  dsimp only
  split
  · rename_i p' heq
    rw [heq] at h
    exact absurd h (by simp)
  · rfl

theorem stripMarkers_marker {i : Nat} {t lit r : List Char}
    (h : takeLit t = some (lit, r)) :
    stripMarkers i (markerPre i ++ t) = placeholder i ++ stripMarkers i r := by
  have hm : matchMarkerAt i (markerPre i ++ t) = some (lit, r) := by
    rw [matchMarkerAt_marker, h]
  rw [markerPre_eq, List.cons_append] at hm ⊢
  rw [stripMarkers_cons_some hm]

theorem stripRes_of_none {i : Nat} {r : List Char} (h : findMarker i r = none) :
    stripRes i r = r := by
  rw [stripRes, h]

theorem stripRes_of_some {i : Nat} {r lit : List Char}
    (h : findMarker i r = some lit) : stripRes i r = stripMarkers i r := by
  rw [stripRes, h]

theorem registerFb_of_none {fb : Fb} {i : Nat} {r : List Char}
    (h : findMarker i r = none) : registerFb fb i r = fb := by
  rw [registerFb, h]

theorem registerFb_of_some_new {fb : Fb} {i : Nat} {r lit : List Char}
    (h : findMarker i r = some lit) (hfb : fb i = none) :
    registerFb fb i r = updateFb fb i (deEscape lit) := by
  rw [registerFb, h]
  simp [hfb]

theorem registerFb_of_some_old {fb : Fb} {i : Nat} {r lit : List Char}
    (h : findMarker i r = some lit) {w : List Char} (hfb : fb i = some w) :
    registerFb fb i r = fb := by
  rw [registerFb, h]
  simp [hfb]

theorem deEscape_cons_ne {c : Char} (rest : List Char) (hc : c ≠ '\\') :
    deEscape (c :: rest) = c :: deEscape rest := by
  rw [deEscape]
  all_goals intros
  all_goals simp_all

theorem deEscape_lit {v : List Char} (hv : ∀ c ∈ v, isLitChar c) :
    deEscape v = v := by
  induction v with
  | nil => rfl
  | cons c v ih =>
    have hc : isLitChar c = true := hv c (List.mem_cons_self c v)
    rw [deEscape_cons_ne v (isLitChar_ne_backslash hc),
        ih (fun d hd => hv d (List.mem_cons_of_mem c hd))]

/-- Absence of any occurrence of `pat` in `s`, position by position. -/
def noOccur (pat : List Char) : List Char → Bool
  | [] => true
  | c :: rest => !(pat.isPrefixOf (c :: rest)) && noOccur pat rest

theorem replaceAll_of_noOccur {pat : List Char} (rep : List Char) {s : List Char}
    (h : noOccur pat s = true) : replaceAll pat rep s = s := by
  induction s with
  | nil => exact replaceAll_nil _ _
  | cons c rest ih =>
    simp only [noOccur, Bool.and_eq_true, Bool.not_eq_true'] at h
    rw [replaceAll_cons,
        if_neg (fun hand => by rw [h.1] at hand; exact Bool.false_ne_true hand.2),
        ih h.2]

theorem replaceAll_cons_nomatch {pat rep : List Char} {c : Char} {rest : List Char}
    (h : pat.isPrefixOf (c :: rest) = false) :
    replaceAll pat rep (c :: rest) = c :: replaceAll pat rep rest := by
  rw [replaceAll_cons,
      if_neg (fun hand => by rw [h] at hand; exact Bool.false_ne_true hand.2)]

theorem replaceAll_head_match (pat rep rest : List Char) (hne : pat ≠ []) :
    replaceAll pat rep (pat ++ rest) = rep ++ replaceAll pat rep rest := by
  match pat with
  | [] => exact absurd rfl hne
  | p1 :: pat' =>
    rw [List.cons_append, replaceAll_cons,
        if_pos ⟨by simp, by rw [← List.cons_append]; exact isPrefixOf_append_self _ _⟩,
        ← List.cons_append, List.drop_left]

/-- The static template `$2?:$1` of the descending-fallback scenario. -/
def fmtElvis : List Char := ['$', '2', '?', ':', '$', '1']

theorem stepIndex_fmtElvis_0 (fb : Fb) (g0 : List Char) :
    stepIndex fb fmtElvis 0 g0 = (fb, fmtElvis) := by
  have hfm : findMarker 0 fmtElvis = none := by decide
  unfold stepIndex
  dsimp only
  rw [registerFb_of_none hfm, stripRes_of_none hfm,
      replaceAll_of_noOccur _ (by decide)]

theorem stepIndex_fmtElvis_1 (fb : Fb) {v : List Char} (hv : v ≠ [])
    (hlit : ∀ c ∈ v, isLitChar c) :
    stepIndex fb fmtElvis 1 v = (fb, ['$', '2', '?', ':'] ++ v) := by
  have hfm : findMarker 1 fmtElvis = none := by decide
  unfold stepIndex
  dsimp only
  rw [registerFb_of_none hfm, stripRes_of_none hfm]
  unfold effectiveValue
  rw [if_neg hv, expand_no_dollar _ (not_dollar_mem_of_lit hlit)]
  rw [show fmtElvis = '$' :: '2' :: '?' :: ':' :: (placeholder 1 ++ []) from rfl]
  rw [replaceAll_cons_nomatch (by decide), replaceAll_cons_nomatch (by decide),
      replaceAll_cons_nomatch (by decide), replaceAll_cons_nomatch (by decide),
      replaceAll_head_match _ _ _ (by decide), replaceAll_nil, List.append_nil]
  rfl

theorem stepIndex_fmtElvis_2_new (fb : Fb) {v : List Char} (hfb : fb 2 = none)
    (hv : v ≠ []) (hlit : ∀ c ∈ v, isLitChar c) :
    stepIndex fb (['$', '2', '?', ':'] ++ v) 2 [] = (updateFb fb 2 v, v) := by
  have hform : (['$', '2', '?', ':'] ++ v : List Char) = markerPre 2 ++ (v ++ []) := by
    rw [List.append_nil]; rfl
  have htl : takeLit (v ++ []) = some (v, []) :=
    takeLit_lit_append hlit hv (by rw [stopsRun])
  have hfm : findMarker 2 (['$', '2', '?', ':'] ++ v) = some v := by
    rw [hform]; exact findMarker_marker htl
  unfold stepIndex
  dsimp only
  rw [registerFb_of_some_new hfm hfb, deEscape_lit hlit]
  rw [stripRes_of_some hfm, hform, stripMarkers_marker htl, stripMarkers_nil,
      List.append_nil]
  unfold effectiveValue
  rw [if_pos rfl]
  rw [show updateFb fb 2 v 2 = some v from by simp [updateFb]]
  rw [show (some v).getD [] = v from rfl,
      expand_no_dollar _ (not_dollar_mem_of_lit hlit)]
  have hra := replaceAll_head_match (placeholder 2) v [] (by decide)
  rw [List.append_nil, replaceAll_nil, List.append_nil] at hra
  rw [hra]

theorem stepIndex_fmtElvis_2_old (fb : Fb) {v x : List Char} (hfb : fb 2 = some x)
    (hv : v ≠ []) (hlit : ∀ c ∈ v, isLitChar c) (hx : ∀ c ∈ x, isLitChar c) :
    stepIndex fb (['$', '2', '?', ':'] ++ v) 2 [] = (fb, x) := by
  have hform : (['$', '2', '?', ':'] ++ v : List Char) = markerPre 2 ++ (v ++ []) := by
    rw [List.append_nil]; rfl
  have htl : takeLit (v ++ []) = some (v, []) :=
    takeLit_lit_append hlit hv (by rw [stopsRun])
  have hfm : findMarker 2 (['$', '2', '?', ':'] ++ v) = some v := by
    rw [hform]; exact findMarker_marker htl
  unfold stepIndex
  dsimp only
  rw [registerFb_of_some_old hfm hfb]
  rw [stripRes_of_some hfm, hform, stripMarkers_marker htl, stripMarkers_nil,
      List.append_nil]
  unfold effectiveValue
  rw [if_pos rfl, hfb]
  rw [show (some x).getD [] = x from rfl,
      expand_no_dollar _ (not_dollar_mem_of_lit hx)]
  have hra := replaceAll_head_match (placeholder 2) x [] (by decide)
  rw [List.append_nil, replaceAll_nil, List.append_nil] at hra
  rw [hra]

theorem processGroup_elvis_new (fb : Fb) (g0 : List Char) {v : List Char}
    (hfb : fb 2 = none) (hv : v ≠ []) (hlit : ∀ c ∈ v, isLitChar c) :
    processGroup fb fmtElvis 0 [g0, v, []] = (updateFb fb 2 v, v) := by
  rw [processGroup, stepIndex_fmtElvis_0]
  show processGroup fb fmtElvis 1 [v, []] = _
  rw [processGroup, stepIndex_fmtElvis_1 fb hv hlit]
  show processGroup fb (['$', '2', '?', ':'] ++ v) 2 [[]] = _
  rw [processGroup, stepIndex_fmtElvis_2_new fb hfb hv hlit]
  show processGroup (updateFb fb 2 v) v 3 [] = _
  rw [processGroup]

theorem processGroup_elvis_old (fb : Fb) (g0 : List Char) {v x : List Char}
    (hfb : fb 2 = some x) (hv : v ≠ []) (hlit : ∀ c ∈ v, isLitChar c)
    (hx : ∀ c ∈ x, isLitChar c) :
    processGroup fb fmtElvis 0 [g0, v, []] = (fb, x) := by
  rw [processGroup, stepIndex_fmtElvis_0]
  show processGroup fb fmtElvis 1 [v, []] = _
  rw [processGroup, stepIndex_fmtElvis_1 fb hv hlit]
  show processGroup fb (['$', '2', '?', ':'] ++ v) 2 [[]] = _
  rw [processGroup, stepIndex_fmtElvis_2_old fb hfb hv hlit hx]
  show processGroup fb x 3 [] = _
  rw [processGroup]

/-- C3 (confirmed): the fallback table is run-scoped with first-write-wins.
With the static template `$2?:$1`, match 1 (captures `g0a, x, ""`)
substitutes `x` for `$1`, registers `x` as the fallback of index 2, and
outputs `x`; match 2 (captures `g0b, y, ""`) carries the dynamically
different marker `$2?:y` in its working copy, which is stripped but not
stored, and its empty index-2 capture substitutes the registered `x`, so both
lines are `x` and the table still maps index 2 to `x`. -/
theorem fallback_first_write_wins (g0a g0b x y : List Char)
    (hx : x ≠ []) (hxl : ∀ c ∈ x, isLitChar c)
    (hy : y ≠ []) (hyl : ∀ c ∈ y, isLitChar c) :
    xoFormat fmtElvis [[g0a, x, []], [g0b, y, []]] = [x, x]
    ∧ (processMatches emptyFb fmtElvis [[g0a, x, []], [g0b, y, []]]).1 2 = some x := by
  have h1 : processGroup emptyFb fmtElvis 0 [g0a, x, []] = (updateFb emptyFb 2 x, x) :=
    processGroup_elvis_new emptyFb g0a rfl hx hxl
  have hfb2 : updateFb emptyFb 2 x 2 = some x := by simp [updateFb]
  have h2 : processGroup (updateFb emptyFb 2 x) fmtElvis 0 [g0b, y, []]
      = (updateFb emptyFb 2 x, x) :=
    processGroup_elvis_old _ g0b hfb2 hy hyl hxl
  have hall : processMatches emptyFb fmtElvis [[g0a, x, []], [g0b, y, []]]
      = (updateFb emptyFb 2 x, [x, x]) := by
    rw [processMatches, h1]
    dsimp only
    rw [processMatches, h2]
    dsimp only
    rw [processMatches]
  refine ⟨?_, ?_⟩
  · unfold xoFormat
    rw [hall]
  · rw [hall]
    simp [updateFb]

theorem fallback_first_write_wins_witness :
    xoFormat fmtElvis [[['m'], ['X'], []], [['m'], ['Y'], []]] = [['X'], ['X']]
    ∧ (processMatches emptyFb fmtElvis
        [[['m'], ['X'], []], [['m'], ['Y'], []]]).1 2 = some ['X'] :=
  fallback_first_write_wins ['m'] ['m'] ['X'] ['Y']
    (by decide) (by decide) (by decide) (by decide)

/-- C4 (confirmed): fallback literals may reference strictly lower indices.
With template `$2?:$1`, when index 1's effective value `v` is a non-empty run
of allowed literal characters and index 2's capture is empty, the ascending
pass first substitutes `v` for `$1` (turning the marker into `$2?:v`), then
registers that already-substituted text as index 2's fallback, and the output
line carries `v` at the `$2` position. -/
theorem fallback_descending_reference (g0 v : List Char)
    (hv : v ≠ []) (hl : ∀ c ∈ v, isLitChar c) :
    xoFormat fmtElvis [[g0, v, []]] = [v]
    ∧ (processMatches emptyFb fmtElvis [[g0, v, []]]).1 2 = some v := by
  have h1 : processGroup emptyFb fmtElvis 0 [g0, v, []] = (updateFb emptyFb 2 v, v) :=
    processGroup_elvis_new emptyFb g0 rfl hv hl
  have hall : processMatches emptyFb fmtElvis [[g0, v, []]]
      = (updateFb emptyFb 2 v, [v]) := by
    rw [processMatches, h1]
    dsimp only
    rw [processMatches]
  refine ⟨?_, ?_⟩
  · unfold xoFormat
    rw [hall]
  · rw [hall]
    simp [updateFb]

theorem fallback_descending_reference_witness :
    xoFormat fmtElvis [[['m'], ['2', '2'], []]] = [['2', '2']]
    ∧ (processMatches emptyFb fmtElvis [[['m'], ['2', '2'], []]]).1 2
        = some ['2', '2'] :=
  fallback_descending_reference ['m'] ['2', '2'] (by decide) (by decide)

/-- C5 counterexample: the replacement step runs the effective value through
Go's replacement-template expansion, so a value containing `$` is not
inserted character for character: substituting the value `$5` for `$1` in the
template `$1` yields the empty line (the regex `\$1` has no group 5), not
`$5`. -/
theorem placeholder_value_dollar_cex :
    replaceAll (placeholder 1) (expand [placeholder 1] ['$', '5']) ['$', '1'] = []
    ∧ expand [placeholder 1] ['$', '5'] = []
    ∧ (['$', '5'] : List Char) ≠ [] := by
  have hexp : expand [placeholder 1] ['$', '5'] = [] := by
    simp [expand, extract, takeName, nameChar, parseNum, parseNumAux]
  have hra := replaceAll_head_match (placeholder 1) [] [] (by decide)
  rw [List.append_nil, replaceAll_nil, List.append_nil] at hra
  refine ⟨?_, hexp, by decide⟩
  rw [hexp]
  exact hra

/-- C5 (amended): the bare-placeholder substitution inserts the effective
value verbatim whenever the value contains no `$` character; a `$` inside the
value is instead interpreted by Go's replacement-template expansion (group
references of the single-group regex `\$i`, `$$` for a literal `$`). -/
theorem placeholder_value_verbatim (i : Nat) (v s : List Char) (h : '$' ∉ v) :
    expand [placeholder i] v = v
    ∧ replaceAll (placeholder i) (expand [placeholder i] v) s
        = replaceAll (placeholder i) v s := by
  have he := expand_no_dollar [placeholder i] h
  exact ⟨he, by rw [he]⟩

theorem placeholder_value_verbatim_witness :
    expand [placeholder 1] ['a'] = ['a']
    ∧ replaceAll (placeholder 1) (expand [placeholder 1] ['a']) ['$', '1']
        = replaceAll (placeholder 1) ['a'] ['$', '1'] :=
  placeholder_value_verbatim 1 ['a'] ['$', '1'] (by decide)

/-- C6 (confirmed): for every match and index, the value substituted for `$i`
is the captured text when it is non-empty (the fallback table is not
consulted), the registered fallback when the capture is empty and the table —
after this step's own registration — has an entry, and the empty string when
the capture is empty and no entry exists. -/
theorem effective_value_cases (fb : Fb) (r : List Char) (i : Nat)
    (value : List Char) :
    (value ≠ [] →
      (stepIndex fb r i value).2
        = replaceAll (placeholder i) (expand [placeholder i] value) (stripRes i r))
    ∧ (value = [] → ∀ w, registerFb fb i r i = some w →
      (stepIndex fb r i value).2
        = replaceAll (placeholder i) (expand [placeholder i] w) (stripRes i r))
    ∧ (value = [] → registerFb fb i r i = none →
      (stepIndex fb r i value).2
        = replaceAll (placeholder i) (expand [placeholder i] []) (stripRes i r)) := by
  refine ⟨?_, ?_, ?_⟩
  · intro hv
    unfold stepIndex
    dsimp only
    unfold effectiveValue
    rw [if_neg hv]
  · intro hv w hw
    unfold stepIndex
    dsimp only
    unfold effectiveValue
    rw [if_pos hv, hw]
    rfl
  · intro hv hw
    unfold stepIndex
    dsimp only
    unfold effectiveValue
    rw [if_pos hv, hw]
    rfl

theorem effective_value_cases_witness :
    (stepIndex emptyFb ['x'] 1 ['a']).2
      = replaceAll (placeholder 1) (expand [placeholder 1] ['a']) (stripRes 1 ['x']) :=
  (effective_value_cases emptyFb ['x'] 1 ['a']).1 (by decide)

/-- C7 counterexample: a match whose whole-match text is empty does consult
the fallback table for index 0: with template `$0?:abc` and the single match
`""`, the output line is `abc`, the registered fallback — not the empty
match text. -/
theorem whole_match_empty_fallback_cex :
    xoFormat ['$', '0', '?', ':', 'a', 'b', 'c'] [[[]]] = [['a', 'b', 'c']]
    ∧ (['a', 'b', 'c'] : List Char) ≠ [] := by
  have hform : (['$', '0', '?', ':', 'a', 'b', 'c'] : List Char)
      = markerPre 0 ++ (['a', 'b', 'c'] ++ []) := by decide
  have htl : takeLit (['a', 'b', 'c'] ++ []) = some (['a', 'b', 'c'], []) := by
    decide
  have hfm : findMarker 0 ['$', '0', '?', ':', 'a', 'b', 'c']
      = some ['a', 'b', 'c'] := by decide
  have hstep : stepIndex emptyFb ['$', '0', '?', ':', 'a', 'b', 'c'] 0 []
      = (updateFb emptyFb 0 ['a', 'b', 'c'], ['a', 'b', 'c']) := by
    unfold stepIndex
    dsimp only
    rw [registerFb_of_some_new hfm rfl]
    rw [show deEscape ['a', 'b', 'c'] = ['a', 'b', 'c'] from rfl]
    rw [stripRes_of_some hfm, hform, stripMarkers_marker htl, stripMarkers_nil,
        List.append_nil]
    unfold effectiveValue
    rw [if_pos rfl]
    rw [show updateFb emptyFb 0 ['a', 'b', 'c'] 0 = some ['a', 'b', 'c'] from rfl]
    rw [show (some ['a', 'b', 'c']).getD [] = ['a', 'b', 'c'] from rfl,
        expand_no_dollar _ (by decide)]
    have hra := replaceAll_head_match (placeholder 0) ['a', 'b', 'c'] [] (by decide)
    rw [List.append_nil, replaceAll_nil, List.append_nil] at hra
    rw [hra]
  have hpg : processGroup emptyFb ['$', '0', '?', ':', 'a', 'b', 'c'] 0 [[]]
      = (updateFb emptyFb 0 ['a', 'b', 'c'], ['a', 'b', 'c']) := by
    rw [processGroup, hstep]
    show processGroup (updateFb emptyFb 0 ['a', 'b', 'c']) ['a', 'b', 'c'] 1 [] = _
    rw [processGroup]
  refine ⟨?_, by decide⟩
  unfold xoFormat
  rw [processMatches, hpg]
  dsimp only
  rw [processMatches]

/-- C7 (amended): the placeholder `$0` resolves to the whole-match text,
never to a fallback, whenever that text is non-empty — for every template,
markers included (they are stripped first); only a match whose whole text is
empty can pick up a registered `$0` fallback, per the counterexample. -/
theorem whole_match_nonempty_verbatim (fb : Fb) (r g0 : List Char)
    (h : g0 ≠ []) :
    (stepIndex fb r 0 g0).2
      = replaceAll (placeholder 0) (expand [placeholder 0] g0) (stripRes 0 r) := by
  unfold stepIndex
  dsimp only
  unfold effectiveValue
  rw [if_neg h]

theorem whole_match_nonempty_verbatim_witness :
    (stepIndex emptyFb ['x'] 0 ['m']).2
      = replaceAll (placeholder 0) (expand [placeholder 0] ['m']) (stripRes 0 ['x']) :=
  whole_match_nonempty_verbatim emptyFb ['x'] ['m'] (by decide)

/-- C8 (confirmed): when the matcher yields zero matches, the run is the
fatal "No matches found" error for every format template — an error value
carrying no output lines, never an empty successful result. -/
theorem zero_matches_error (format : List Char) :
    xoRun format [] = Except.error XoErr.noMatches := by
  rw [xoRun, if_pos rfl]

theorem matchMarkerAt_none_of_nofix {i : Nat} {s : List Char}
    (h : (markerPre i).isPrefixOf s = false) : matchMarkerAt i s = none := by
  unfold matchMarkerAt
  rw [if_neg (fun hc => Bool.false_ne_true (h ▸ hc))]

/-- C9 (confirmed): specification-string validation is exhaustive and fatal
before any matching: invalid UTF-8 fails during splitting, 0 or 1 components
fail as "No pattern or formatter specified", more than 3 components fail as
"Extra delimiter detected"; in each case the result is an error carrying no
output lines, whatever the matcher and the input. -/
theorem spec_validation_errors (bytes : List Nat)
    (matcher : List Char → List Char → List (List (List Char)))
    (input : List Char) :
    (utf8Decode bytes = none →
      xoMain bytes matcher input = Except.error XoErr.invalidArg)
    ∧ (∀ cs, utf8Decode bytes = some cs → (split cs).length ≤ 1 →
      xoMain bytes matcher input = Except.error XoErr.noPatternFormatter)
    ∧ (∀ cs, utf8Decode bytes = some cs → 3 < (split cs).length →
      xoMain bytes matcher input = Except.error XoErr.extraDelim) := by
  refine ⟨?_, ?_, ?_⟩
  · intro h
    unfold xoMain parseSpec
    rw [h]
  · intro cs h hlen
    unfold xoMain parseSpec
    rw [h]
    dsimp only
    rw [if_pos hlen]
  · intro cs h hlen
    unfold xoMain parseSpec
    rw [h]
    dsimp only
    rw [if_neg (by omega), if_pos hlen]

theorem spec_validation_errors_witness :
    xoMain [0x80] (fun _ _ => []) [] = Except.error XoErr.invalidArg
    ∧ xoMain [47, 97] (fun _ _ => []) [] = Except.error XoErr.noPatternFormatter
    ∧ xoMain [47, 97, 47, 98, 47, 99, 47, 100, 47] (fun _ _ => []) []
        = Except.error XoErr.extraDelim :=
  ⟨(spec_validation_errors [0x80] _ _).1 (by decide),
   (spec_validation_errors [47, 97] _ _).2.1 ['/', 'a'] (by decide) (by decide),
   (spec_validation_errors [47, 97, 47, 98, 47, 99, 47, 100, 47] _ _).2.2
     ['/', 'a', '/', 'b', '/', 'c', '/', 'd', '/'] (by decide) (by decide)⟩

/-- C10 (confirmed): with 10 or more capture groups and a template carrying
the placeholder `$10` (in a context free of further `$` signs), the
substitution for index 1 rewrites the `$1` prefix of `$10`, leaving index 1's
value followed by the character `0`; the output line is independent of the
captures at indices 2 and above, so `$10` never resolves to the text of
capture group 10. -/
theorem ten_placeholder_rewrite (pre post g0 v1 : List Char)
    (vs : List (List Char))
    (hpre : '$' ∉ pre) (hpost : '$' ∉ post) (hv : '$' ∉ v1)
    (hlen : 9 ≤ vs.length) :
    xoFormat (pre ++ ('$' :: '1' :: '0' :: post)) [g0 :: v1 :: vs]
      = [pre ++ (v1 ++ ('0' :: post))] := by
  have hpost1 : '$' ∉ ('0' :: post) := by
    intro hm
    rcases List.mem_cons.mp hm with h | h
    · exact absurd h (by decide)
    · exact hpost h
  have hpost2 : '$' ∉ ('1' :: '0' :: post) := by
    intro hm
    rcases List.mem_cons.mp hm with h | h
    · exact absurd h (by decide)
    · exact hpost1 h
  have hpf0 : (markerPre 0).isPrefixOf ('$' :: '1' :: '0' :: post) = false := by
    rw [show markerPre 0 = ['$', '0', '?', ':'] from by decide]
    simp [List.isPrefixOf]
  have hpf1 : (markerPre 1).isPrefixOf ('$' :: '1' :: '0' :: post) = false := by
    rw [show markerPre 1 = ['$', '1', '?', ':'] from by decide]
    simp [List.isPrefixOf]
  have hfm0 : findMarker 0 (pre ++ ('$' :: '1' :: '0' :: post)) = none := by
    rw [findMarker_append_left _ hpre, findMarker,
        matchMarkerAt_none_of_nofix hpf0]
    exact findMarker_no_dollar hpost2
  have hfm1 : findMarker 1 (pre ++ ('$' :: '1' :: '0' :: post)) = none := by
    rw [findMarker_append_left _ hpre, findMarker,
        matchMarkerAt_none_of_nofix hpf1]
    exact findMarker_no_dollar hpost2
  have hstep0 : stepIndex emptyFb (pre ++ ('$' :: '1' :: '0' :: post)) 0 g0
      = (emptyFb, pre ++ ('$' :: '1' :: '0' :: post)) := by
    unfold stepIndex
    dsimp only
    rw [registerFb_of_none hfm0, stripRes_of_none hfm0]
    rw [show placeholder 0 = '$' :: ['0'] from by decide]
    rw [replaceAll_append_left _ hpre,
        replaceAll_cons_nomatch (by simp [List.isPrefixOf]),
        replaceAll_no_dollar hpost2]
  have hstep1 : stepIndex emptyFb (pre ++ ('$' :: '1' :: '0' :: post)) 1 v1
      = (emptyFb, pre ++ (v1 ++ ('0' :: post))) := by
    unfold stepIndex
    dsimp only
    rw [registerFb_of_none hfm1, stripRes_of_none hfm1]
    unfold effectiveValue
    by_cases hv1 : v1 = []
    · subst hv1
      rw [if_pos rfl,
          show (emptyFb 1).getD [] = ([] : List Char) from rfl, expand_nil]
      rw [show placeholder 1 = '$' :: ['1'] from by decide]
      rw [replaceAll_append_left _ hpre,
          show ('$' :: '1' :: '0' :: post : List Char)
            = ('$' :: ['1']) ++ ('0' :: post) from rfl,
          replaceAll_head_match _ _ _ (by decide),
          replaceAll_no_dollar hpost1]
    · rw [if_neg hv1, expand_no_dollar _ hv]
      rw [show placeholder 1 = '$' :: ['1'] from by decide]
      rw [replaceAll_append_left _ hpre,
          show ('$' :: '1' :: '0' :: post : List Char)
            = ('$' :: ['1']) ++ ('0' :: post) from rfl,
          replaceAll_head_match _ _ _ (by decide),
          replaceAll_no_dollar hpost1]
  have hpg : processGroup emptyFb (pre ++ ('$' :: '1' :: '0' :: post)) 0
      (g0 :: v1 :: vs) = (emptyFb, pre ++ (v1 ++ ('0' :: post))) := by
    rw [processGroup, hstep0]
    show processGroup emptyFb (pre ++ ('$' :: '1' :: '0' :: post)) 1 (v1 :: vs) = _
    rw [processGroup, hstep1]
    show processGroup emptyFb (pre ++ (v1 ++ ('0' :: post))) 2 vs = _
    refine processGroup_no_dollar 2 vs ?_
    intro hm
    rcases List.mem_append.mp hm with h | h
    · exact hpre h
    rcases List.mem_append.mp h with h2 | h2
    · exact hv h2
    · exact hpost1 h2
  unfold xoFormat
  rw [processMatches, hpg]
  dsimp only
  rw [processMatches]

theorem ten_placeholder_rewrite_witness :
    xoFormat (['a', ' '] ++ ('$' :: '1' :: '0' :: []))
        [[['m'], ['V'], [], [], [], [], [], [], [], [], ['T']]]
      = [['a', ' '] ++ (['V'] ++ ('0' :: []))] :=
  ten_placeholder_rewrite ['a', ' '] [] ['m'] ['V']
    [[], [], [], [], [], [], [], [], ['T']]
    (by decide) (by decide) (by decide) (by decide)

/-! ### Shape of the fallback literal (claim C2)

The marker regex `(\$i)\?:(([-_A-Za-z0-9]((\\.)+)?)+)` accepts, after `$i?:`,
one or more units of an allowed character optionally followed by escapes, so
the literal is a maximal run of allowed-character and escape tokens whose
first token is an allowed character (not an escape), and the escaped
character may not be a newline (the regex dot).  A token view makes this
precise. -/

/-- One token of a fallback literal: an allowed character or an escape. -/
inductive Tok
  | lit (c : Char)
  | esc (c : Char)
deriving DecidableEq

/-- Raw text a token contributes to the literal. -/
def Tok.flat : Tok → List Char
  | .lit c => [c]
  | .esc c => ['\\', c]

/-- Character a token de-escapes to. -/
def Tok.unesc : Tok → Char
  | .lit c => c
  | .esc c => c

/-- Raw text of a token sequence. -/
def flats (ts : List Tok) : List Char := (ts.map Tok.flat).join

/-- Token accepted by the code's regex: an allowed character, or an escape of
a character other than newline. -/
def tokOK : Tok → Bool
  | .lit c => isLitChar c
  | .esc c => !(c == '\n')

theorem flats_cons (t : Tok) (ts : List Tok) :
    flats (t :: ts) = Tok.flat t ++ flats ts := by
  simp [flats]

theorem takeTokens_flats {ts : List Tok} {rest : List Char}
    (hts : ∀ t ∈ ts, tokOK t = true) (hrest : stopsRun rest = true) :
    takeTokens (flats ts ++ rest) = (flats ts, rest) := by
  induction ts with
  | nil =>
    rw [show flats [] = [] from rfl, List.nil_append]
    exact takeTokens_stops hrest
  | cons t ts ih =>
    have hok : tokOK t = true := hts t (List.mem_cons_self t ts)
    have ihs := ih (fun u hu => hts u (List.mem_cons_of_mem t hu))
    cases t with
    | lit c =>
      have hc : isLitChar c = true := hok
      rw [flats_cons, Tok.flat, List.cons_append, List.nil_append,
          List.cons_append, takeTokens.eq_def]
      dsimp only
      rw [if_neg (isLitChar_ne_backslash hc), if_pos hc, ihs]
    | esc c =>
      have hc : c ≠ '\n' := by simpa [tokOK] using hok
      rw [flats_cons, show Tok.flat (Tok.esc c) = '\\' :: [c] from rfl,
          List.append_assoc, List.cons_append, List.cons_append,
          List.nil_append]
      simp [takeTokens, hc, ihs]

theorem deEscape_flats {ts : List Tok} (hts : ∀ t ∈ ts, tokOK t = true) :
    deEscape (flats ts) = List.map Tok.unesc ts := by
  induction ts with
  | nil => rfl
  | cons t ts ih =>
    have hok : tokOK t = true := hts t (List.mem_cons_self t ts)
    have ihs := ih (fun u hu => hts u (List.mem_cons_of_mem t hu))
    cases t with
    | lit c =>
      have hc : isLitChar c = true := hok
      rw [flats_cons, Tok.flat, List.cons_append, List.nil_append,
          deEscape_cons_ne _ (isLitChar_ne_backslash hc), ihs, List.map_cons,
          Tok.unesc]
    | esc c =>
      have hc : c ≠ '\n' := by simpa [tokOK] using hok
      rw [flats_cons, Tok.flat, List.cons_append, List.cons_append,
          List.nil_append, deEscape, if_pos hc, ihs, List.map_cons, Tok.unesc]

/-- C2 counterexample: the claimed literal shape allows the tokens of the run
to appear in any order, so `$1?:\-x` (escape token first) should be a
recognised marker with de-escaped value `-x`; the code's regex requires the
run to begin with an allowed character and recognises no marker there. -/
theorem fallback_marker_escape_first_cex :
    findMarker 1 ('$' :: '1' :: '?' :: ':' :: flats [Tok.esc '-', Tok.lit 'x'])
      = none
    ∧ flats [Tok.esc '-', Tok.lit 'x'] = ['\\', '-', 'x']
    ∧ deEscape (flats [Tok.esc '-', Tok.lit 'x']) = ['-', 'x'] :=
  ⟨by decide, by decide, by decide⟩

/-- C2 (amended): the fallback marker recognised in a template is
`$i?:<literal>` where the literal is a maximal run of allowed characters
(letters, digits, hyphen, underscore) and backslash escapes of non-newline
characters, the run beginning with an allowed character; the value registered
for index `i` is that literal with each escape reduced to the escaped
character. -/
theorem fallback_marker_shape (i : Nat) (c : Char) (ts : List Tok)
    (rest : List Char) (fb : Fb)
    (hc : isLitChar c = true)
    (hts : ∀ t ∈ ts, tokOK t = true)
    (hrest : stopsRun rest = true)
    (hfb : fb i = none) :
    findMarker i (markerPre i ++ ((c :: flats ts) ++ rest)) = some (c :: flats ts)
    ∧ registerFb fb i (markerPre i ++ ((c :: flats ts) ++ rest)) i
        = some (c :: List.map Tok.unesc ts) := by
  have htl : takeLit ((c :: flats ts) ++ rest) = some (c :: flats ts, rest) := by
    rw [List.cons_append, takeLit.eq_def]
    dsimp only
    rw [if_pos hc, takeTokens_flats hts hrest]
  refine ⟨findMarker_marker htl, ?_⟩
  rw [registerFb_of_some_new (findMarker_marker htl) hfb]
  rw [show updateFb fb i (deEscape (c :: flats ts)) i
        = some (deEscape (c :: flats ts)) from by simp [updateFb]]
  rw [deEscape_cons_ne _ (isLitChar_ne_backslash hc), deEscape_flats hts]

theorem fallback_marker_shape_witness :
    findMarker 1 (markerPre 1 ++ (('a' :: flats [Tok.esc '$']) ++ ['!']))
      = some ('a' :: flats [Tok.esc '$'])
    ∧ registerFb emptyFb 1 (markerPre 1 ++ (('a' :: flats [Tok.esc '$']) ++ ['!'])) 1
      = some ('a' :: List.map Tok.unesc [Tok.esc '$']) :=
  fallback_marker_shape 1 'a' [Tok.esc '$'] ['!'] emptyFb
    (by decide) (by decide) (by decide) rfl

end Xo
